import Mathlib

/-!
Verification of the program-representation module of a Cairo virtual machine
(file vm/src/types/program.rs) and of the fibonacci helper binary
(file feb/src/main.rs).

Rust HashMaps are embedded as association lists (List of key-value pairs);
one list order models one iteration order, and theorems universally
quantified over such lists cover every iteration order the Rust HashMap may
produce.  The distinct-key invariant of a HashMap is an explicit Nodup
hypothesis where a theorem needs it.  Machine integers (usize) are Nat; the
64-bit signed arithmetic of the fibonacci binary is Int with explicit
two-complement wrapping.
-/

/-- Field element of the Cairo prime field (external felt crate).  The claims
only move these values around, so the embedding uses unbounded integers. -/
abbrev Felt252 := Int

/-- The fixed prime string constant of the external felt crate
(PRIME_STR), re-exported by the program module through Program.prime. -/
def PRIME_STR : String := "0x800000000000011000000000000000000000000000000000000000000000001"

/-- A relocatable (segment, offset) address, from types/relocatable.rs. -/
structure Relocatable where
  segment_index : Int
  offset : Nat
deriving DecidableEq

/-- MaybeRelocatable from types/relocatable.rs: either a relocatable address
or a field element. -/
inductive MaybeRelocatable where
  | RelocatableValue : Relocatable → MaybeRelocatable
  | Int : Felt252 → MaybeRelocatable
deriving DecidableEq

/-- Allocation-pointer tracking data (serde/deserialize_program.rs); its
Rust Default is group 0, offset 0. -/
structure ApTracking where
  group : Nat
  offset : Nat
deriving DecidableEq

/-- ApTracking::default() of the Rust derive(Default). -/
def ApTracking.default : ApTracking := { group := 0, offset := 0 }

/-- Flow-tracking data of a hint (serde/deserialize_program.rs): ap tracking
plus a reference-id mapping (HashMap as association list). -/
structure FlowTrackingData where
  ap_tracking : ApTracking
  reference_ids : List (String × Nat)
deriving DecidableEq

/-- HintParams (serde/deserialize_program.rs): hint source text, accessible
scopes and flow-tracking data, stored verbatim by the program module. -/
structure HintParams where
  code : String
  accessible_scopes : List String
  flow_tracking_data : FlowTrackingData
deriving DecidableEq

/-- Member metadata of a struct identifier (serde/deserialize_program.rs);
stored verbatim, never inspected by the program module. -/
structure Member where
  cairo_type : String
  offset : Nat
deriving DecidableEq

/-- Identifier (serde/deserialize_program.rs), with the fields used by the
program module and its tests: optional pc, type tag, value, full name,
member mapping and declared type. -/
structure Identifier where
  pc : Option Nat
  type_ : Option String
  value : Option Felt252
  full_name : Option String
  members : Option (List (String × Member))
  cairo_type : Option String
deriving DecidableEq

/-- Diagnostic attribute (serde/deserialize_program.rs), as used by the
program tests: name, pc range, message and optional flow-tracking data. -/
structure Attribute where
  name : String
  start_pc : Nat
  end_pc : Nat
  value : String
  flow_tracking_data : Option FlowTrackingData
deriving DecidableEq

/-- Debug location record (serde/deserialize_program.rs); stored verbatim,
opaque to the program module. -/
structure InstructionLocation where
  location_text : String
deriving DecidableEq

/-- Register of an offset expression (types/instruction.rs). -/
inductive Register where
  | AP : Register
  | FP : Register
deriving DecidableEq

/-- OffsetValue (serde/deserialize_program.rs): an immediate field element,
a plain value, or a register-relative reference. -/
inductive OffsetValue where
  | Immediate : Felt252 → OffsetValue
  | Value : Int → OffsetValue
  | Reference : Register → Int → Bool → OffsetValue
deriving DecidableEq

/-- ValueAddress (serde/deserialize_program.rs): the two offset expressions,
the dereference flag and the declared type of a reference. -/
structure ValueAddress where
  offset1 : OffsetValue
  offset2 : OffsetValue
  dereference : Bool
  value_type : String
deriving DecidableEq

/-- A compile-time reference of the reference manager
(serde/deserialize_program.rs). -/
structure Reference where
  ap_tracking_data : ApTracking
  pc : Option Nat
  value_address : ValueAddress
deriving DecidableEq

/-- ReferenceManager (serde/deserialize_program.rs): the ordered reference
list. -/
structure ReferenceManager where
  references : List Reference
deriving DecidableEq

/-- Reduced reference (hint_processor/hint_processor_definition.rs) produced
by Program::get_reference_list. -/
structure HintReference where
  offset1 : OffsetValue
  offset2 : OffsetValue
  dereference : Bool
  ap_tracking_data : Option ApTracking
  cairo_type : Option String
deriving DecidableEq

/-- Builtin names (serde/deserialize_program.rs); the order of a builtins
list is semantically meaningful. -/
inductive BuiltinName where
  | output
  | range_check
  | pedersen
  | ecdsa
  | keccak
  | bitwise
  | ec_op
  | poseidon
  | segment_arena
deriving DecidableEq

/-- Construction errors (types/errors/program_errors.rs), with the variant
raised by Program::new for a const identifier without a value. -/
inductive ProgramError where
  | ConstWithoutValue : String → ProgramError
  | EntrypointNotFound : String → ProgramError
deriving DecidableEq

/-- SharedProgramData of program.rs: the cold, immutable aggregate (held in
an Arc in Rust; the sharing itself is out of scope of the claims, so it is
embedded as a plain field).  The Rust field named end is rendered end_. -/
structure SharedProgramData where
  data : List MaybeRelocatable
  hints : List HintParams
  hints_ranges : List (Option (Nat × Nat))
  main : Option Nat
  start : Option Nat
  end_ : Option Nat
  error_message_attributes : List Attribute
  instruction_locations : Option (List (Nat × InstructionLocation))
  identifiers : List (String × Identifier)
  reference_manager : List HintReference
deriving DecidableEq

/-- Program of program.rs: the hot value holding the shared aggregate, the
derived constants mapping and the builtins list. -/
structure Program where
  shared_program_data : SharedProgramData
  constants : List (String × Felt252)
  builtins : List BuiltinName
deriving DecidableEq

/-- HashMap::get over the association-list embedding: the value of the first
entry whose key equals the requested key. -/
def hashmap_get {K V : Type} [DecidableEq K] (m : List (K × V)) (k : K) : Option V :=
  match m with
  | [] => none
  | (k1, v) :: rest => if k1 = k then some v else hashmap_get rest k

/-- The reduce step of flatten_hints: over the (pc, hint-list-length) pairs,
accumulate the maximal pc and the total hint count; none for the empty map.
Mirrors the iterator reduce in program.rs lines 113-120. -/
def flatten_bounds (hints : List (Nat × List HintParams)) : Option (Nat × Nat) :=
  match hints with
  | [] => none
  | (pc, hs) :: rest =>
    some (rest.foldl (fun acc p => (max acc.1 p.1, acc.2 + p.2.length)) (pc, hs.length))

/-- The filling loop of flatten_hints (program.rs lines 125-132): walk the
map in iteration order, skip empty hint lists, record the (offset, length)
range of each pc and append its hints to the dense array.  The NonZeroUsize
length of the Rust range is embedded as a plain Nat; its positivity (the
expect that never fires) is proved separately. -/
def flatten_loop (l : List (Nat × List HintParams)) (values : List HintParams)
    (ranges : List (Option (Nat × Nat))) : List HintParams × List (Option (Nat × Nat)) :=
  match l with
  | [] => (values, ranges)
  | (pc, hs) :: rest =>
    if hs = [] then flatten_loop rest values ranges
    else flatten_loop rest (values ++ hs) (ranges.set pc (some (values.length, hs.length)))

/-- Program::flatten_hints (program.rs lines 110-135): convert the per-pc
hint map into the dense hint array plus the per-pc optional range index of
size max_pc + 1, or two empty outputs for the empty map. -/
def Program.flatten_hints (hints : List (Nat × List HintParams)) :
    List HintParams × List (Option (Nat × Nat)) :=
  match flatten_bounds hints with
  | none => ([], [])
  | some (max_pc, _full_len) =>
    flatten_loop hints [] (List.replicate (max_pc + 1) none)

/-- The constants-building loop of Program::new (program.rs lines 78-87):
for each identifier tagged const, require its value and collect the
(name, value) pair; a missing value aborts with ConstWithoutValue. -/
def extract_constants (identifiers : List (String × Identifier)) :
    Except ProgramError (List (String × Felt252)) :=
  match identifiers with
  | [] => Except.ok []
  | (key, ident) :: rest =>
    if ident.type_ = some "const" then
      match ident.value with
      | none => Except.error (ProgramError.ConstWithoutValue key)
      | some v =>
        match extract_constants rest with
        | Except.error e => Except.error e
        | Except.ok cs => Except.ok ((key, v) :: cs)
    else extract_constants rest

/-- Program::get_reference_list (program.rs lines 179-200): one reduced
reference per input reference, keeping ap tracking data only when one of
the two offset expressions is an AP-register-relative reference. -/
def Program.get_reference_list (reference_manager : ReferenceManager) : List HintReference :=
  reference_manager.references.map (fun r =>
    { offset1 := r.value_address.offset1
      offset2 := r.value_address.offset2
      dereference := r.value_address.dereference
      ap_tracking_data :=
        match r.value_address.offset1, r.value_address.offset2 with
        | OffsetValue.Reference Register.AP _ _, _ => some r.ap_tracking_data
        | _, OffsetValue.Reference Register.AP _ _ => some r.ap_tracking_data
        | _, _ => none
      cairo_type := some r.value_address.value_type })

/-- Program::new (program.rs lines 68-108): extract constants (may fail),
flatten hints, derive the reference list, and assemble the program value. -/
def Program.new (builtins : List BuiltinName) (data : List MaybeRelocatable)
    (main : Option Nat) (hints : List (Nat × List HintParams))
    (reference_manager : ReferenceManager)
    (identifiers : List (String × Identifier))
    (error_message_attributes : List Attribute)
    (instruction_locations : Option (List (Nat × InstructionLocation))) :
    Except ProgramError Program :=
  match extract_constants identifiers with
  | Except.error e => Except.error e
  | Except.ok constants =>
    Except.ok
      { shared_program_data :=
          { data := data
            hints := (Program.flatten_hints hints).1
            hints_ranges := (Program.flatten_hints hints).2
            main := main
            start := none
            end_ := none
            error_message_attributes := error_message_attributes
            instruction_locations := instruction_locations
            identifiers := identifiers
            reference_manager := Program.get_reference_list reference_manager }
        constants := constants
        builtins := builtins }

/-- Program::prime (program.rs lines 147-150): ignores the receiver and
returns the fixed prime string. -/
def Program.prime (_p : Program) : String := PRIME_STR

/-- Program::iter_builtins (program.rs). -/
def Program.iter_builtins (p : Program) : List BuiltinName := p.builtins

/-- Program::iter_data (program.rs). -/
def Program.iter_data (p : Program) : List MaybeRelocatable := p.shared_program_data.data

/-- Program::data_len (program.rs). -/
def Program.data_len (p : Program) : Nat := p.shared_program_data.data.length

/-- Program::builtins_len (program.rs). -/
def Program.builtins_len (p : Program) : Nat := p.builtins.length

/-- Program::get_identifier (program.rs): exact-name lookup. -/
def Program.get_identifier (p : Program) (id : String) : Option Identifier :=
  hashmap_get p.shared_program_data.identifiers id

/-- Program::iter_identifiers (program.rs): every (name, identifier) pair. -/
def Program.iter_identifiers (p : Program) : List (String × Identifier) :=
  p.shared_program_data.identifiers

/-- Default for Program (program.rs lines 203-211). -/
def Program.default : Program :=
  { shared_program_data :=
      { data := []
        hints := []
        hints_ranges := []
        main := none
        start := none
        end_ := none
        error_message_attributes := []
        instruction_locations := none
        identifiers := []
        reference_manager := [] }
    constants := []
    builtins := [] }

/-- A bytecode codeword of a compiled contract class (external
cairo-lang-starknet crate): a big unsigned integer. -/
structure BigUintAsHex where
  value : Nat
deriving DecidableEq

/-- An opaque compiled-class hint body (external cairo-lang-casm crate); the
conversion in program.rs discards it and keeps only the pc. -/
abbrev CasmHint := String

/-- CasmContractClass (external cairo-lang-starknet crate), restricted to
the two fields the TryFrom conversion in program.rs reads: the flat
bytecode and the (pc, hints) table. -/
structure CasmContractClass where
  bytecode : List BigUintAsHex
  hints : List (Nat × List CasmHint)
deriving DecidableEq

/-- The synthetic hint built by the TryFrom conversion (program.rs lines
228-240): its body is the textual pc, with empty accessible scopes, default
ap tracking and empty reference ids. -/
def casm_synthetic_hint (pc : Nat) : HintParams :=
  { code := toString pc
    accessible_scopes := []
    flow_tracking_data :=
      { ap_tracking := ApTracking.default
        reference_ids := [] } }

/-- The feature-gated TryFrom CasmContractClass conversion (program.rs
lines 215-257): each codeword becomes one field-element instruction, each
hint-table entry one synthetic hint at its pc; builtins, identifiers,
attributes and references are empty, the entrypoint is absent. -/
def Program.try_from (value : CasmContractClass) : Except ProgramError Program :=
  Program.new []
    (value.bytecode.map (fun x => MaybeRelocatable.Int (Int.ofNat x.value)))
    none
    (value.hints.map (fun x => (x.1, [casm_synthetic_hint x.1])))
    { references := [] }
    [] [] none

/-- Two-complement wrapping of an unbounded integer into the i64 range,
modelling release-profile Rust i64 addition. -/
def i64_wrap (x : Int) : Int := (x + 2 ^ 63) % 2 ^ 64 - 2 ^ 63

/-- The loop of the fibonacci function (feb/src/main.rs lines 11-18), one
step per element of the Rust range 1..n, on state (sum, last, curr). -/
def fibonacci_loop : Nat → Int × Int × Int → Int × Int × Int
  | 0, s => s
  | k + 1, (_, last, curr) =>
    let sum := i64_wrap (last + curr)
    fibonacci_loop k (sum, curr, sum)

/-- fibonacci (feb/src/main.rs lines 4-20): none models the panic at n = 0;
n = 1 returns 1 early; otherwise the loop runs once per element of 1..n
(empty when n is below 2) and sum is returned. -/
def fibonacci (n : Int) : Option Int :=
  if n = 0 then none
  else if n = 1 then some 1
  else some (fibonacci_loop (n - 1).toNat (0, 0, 1)).1

/-- Concatenation of the hint lists of a map, in iteration order. -/
def hints_concat : List (Nat × List HintParams) → List HintParams
  | [] => []
  | p :: rest => p.2 ++ hints_concat rest

/-- Total length covered by the present ranges of an index array. -/
def ranges_len_sum : List (Option (Nat × Nat)) → Nat
  | [] => 0
  | none :: t => ranges_len_sum t
  | some r :: t => r.2 + ranges_len_sum t

/-- An offset expression is AP-register-relative. -/
def isApReference : OffsetValue → Bool
  | OffsetValue.Reference Register.AP _ _ => true
  | _ => false

/-- A hint with the given body and empty metadata, as in the spec scenario. -/
def wit_hp (s : String) : HintParams :=
  { code := s
    accessible_scopes := []
    flow_tracking_data := { ap_tracking := { group := 0, offset := 0 }, reference_ids := [] } }

/-- The spec scenario hint mapping 5 to [c, d], 1 to [a], 4 to [b]. -/
def wit_hints : List (Nat × List HintParams) :=
  [(5, [wit_hp "c", wit_hp "d"]), (1, [wit_hp "a"]), (4, [wit_hp "b"])]

/-- A const identifier with value 7. -/
def wit_ident_a : Identifier :=
  { pc := none, type_ := some "const", value := some 7, full_name := none,
    members := none, cairo_type := none }

/-- A function identifier without a value. -/
def wit_ident_b : Identifier :=
  { pc := some 0, type_ := some "function", value := none, full_name := none,
    members := none, cairo_type := none }

/-- A small identifier table with one const and one function entry. -/
def wit_identifiers : List (String × Identifier) := [("a", wit_ident_a), ("b", wit_ident_b)]

/-- The program value Program.new builds from the witness inputs. -/
def wit_program : Program :=
  { shared_program_data :=
      { data := [MaybeRelocatable.Int 5189976364521848832]
        hints := []
        hints_ranges := []
        main := none
        start := none
        end_ := none
        error_message_attributes := []
        instruction_locations := none
        identifiers := wit_identifiers
        reference_manager := [] }
    constants := [("a", 7)]
    builtins := [BuiltinName.range_check, BuiltinName.bitwise] }

/-- A reference whose first offset expression is AP-relative. -/
def wit_reference : Reference :=
  { ap_tracking_data := { group := 1, offset := 2 }
    pc := none
    value_address :=
      { offset1 := OffsetValue.Reference Register.AP 0 false
        offset2 := OffsetValue.Value 3
        dereference := true
        value_type := "felt" } }

/-- A reference manager holding the single AP-relative reference. -/
def wit_reference_manager : ReferenceManager := { references := [wit_reference] }

/-- A compiled contract class with two codewords and one hint-table entry. -/
def wit_cc : CasmContractClass :=
  { bytecode := [{ value := 5 }, { value := 1000 }], hints := [(0, ["casm hint"])] }

/-- The program value Program.try_from builds from wit_cc. -/
def wit_casm_program : Program :=
  { shared_program_data :=
      { data := [MaybeRelocatable.Int 5, MaybeRelocatable.Int 1000]
        hints := [casm_synthetic_hint 0]
        hints_ranges := [some (0, 1)]
        main := none
        start := none
        end_ := none
        error_message_attributes := []
        instruction_locations := none
        identifiers := []
        reference_manager := [] }
    constants := []
    builtins := [] }

/-! ### Association-list (HashMap) lemmas -/

theorem hashmap_get_eq_none {K V : Type} [DecidableEq K] (m : List (K × V)) (k : K) :
    hashmap_get m k = none ↔ ∀ v, (k, v) ∉ m := by
  induction m with
  | nil => simp [hashmap_get]
  | cons p rest ih =>
    obtain ⟨k1, v1⟩ := p
    by_cases h : k1 = k
    · subst h
      simp only [hashmap_get, if_pos rfl]
      constructor
      · intro hcontra
        exact absurd hcontra (by simp)
      · intro hall
        exact absurd (List.mem_cons_self _ _) (hall v1)
    · simp only [hashmap_get, if_neg h, ih, List.mem_cons]
      constructor
      · rintro hall v (he | hm)
        · exact h (congrArg Prod.fst he).symm
        · exact hall v hm
      · intro hall v hm
        exact hall v (Or.inr hm)

theorem hashmap_get_mem {K V : Type} [DecidableEq K] (m : List (K × V)) (k : K) (v : V)
    (h : hashmap_get m k = some v) : (k, v) ∈ m := by
  induction m with
  | nil => simp [hashmap_get] at h
  | cons p rest ih =>
    obtain ⟨k1, v1⟩ := p
    by_cases hk : k1 = k
    · subst hk
      have hv : v1 = v := by simpa [hashmap_get] using h
      subst hv
      exact List.mem_cons_self _ _
    · simp only [hashmap_get, if_neg hk] at h
      exact List.mem_cons_of_mem _ (ih h)

theorem hashmap_get_of_mem {K V : Type} [DecidableEq K] (m : List (K × V)) (k : K) (v : V)
    (hnd : (m.map Prod.fst).Nodup) (hm : (k, v) ∈ m) : hashmap_get m k = some v := by
  induction m with
  | nil => simp at hm
  | cons p rest ih =>
    obtain ⟨k1, v1⟩ := p
    simp only [List.map_cons, List.nodup_cons] at hnd
    rcases List.mem_cons.mp hm with he | hmem
    · obtain ⟨hk, hv⟩ := Prod.mk.injEq .. ▸ he
      subst hk; subst hv
      simp [hashmap_get]
    · have hk : k1 ≠ k := by
        intro he
        subst he
        exact hnd.1 (List.mem_map.mpr ⟨(k1, v), hmem, rfl⟩)
      simp only [hashmap_get, if_neg hk]
      exact ih hnd.2 hmem

theorem hashmap_get_map {B C : Type} (l : List (Nat × B)) (g : Nat → C) (k : Nat) :
    hashmap_get (l.map (fun x => (x.1, g x.1))) k = (hashmap_get l k).map (fun _ => g k) := by
  induction l with
  | nil => simp [hashmap_get]
  | cons p rest ih =>
    by_cases h : p.1 = k
    · subst h
      simp [hashmap_get]
    · simp [hashmap_get, if_neg h, ih]

/-! ### getD helpers for the range index -/

theorem getD_set_ne {A : Type} (l : List A) (d v : A) (i j : Nat) (h : i ≠ j) :
    (l.set j v).getD i d = l.getD i d := by
  induction l generalizing i j with
  | nil => simp
  | cons a t ih =>
    cases j with
    | zero =>
      cases i with
      | zero => exact absurd rfl h
      | succ i => simp [List.set]
    | succ j =>
      cases i with
      | zero => simp [List.set]
      | succ i =>
        simp only [List.set, List.getD_cons_succ]
        exact ih i j (fun he => h (by rw [he]))

theorem getD_set_self {A : Type} (l : List A) (d v : A) (j : Nat) (h : j < l.length) :
    (l.set j v).getD j d = v := by
  induction l generalizing j with
  | nil => simp at h
  | cons a t ih =>
    cases j with
    | zero => simp [List.set]
    | succ j =>
      simp only [List.set, List.getD_cons_succ]
      exact ih j (by simpa using h)

theorem getD_replicate {A : Type} (n i : Nat) (d : A) :
    (List.replicate n d).getD i d = d := by
  induction n generalizing i with
  | zero => simp
  | succ n ih =>
    cases i with
    | zero => simp [List.replicate]
    | succ i =>
      simp only [List.replicate, List.getD_cons_succ]
      exact ih i

/-! ### flatten_hints lemmas -/

theorem flatten_loop_fst (l : List (Nat × List HintParams)) (vs : List HintParams)
    (rs : List (Option (Nat × Nat))) :
    (flatten_loop l vs rs).1 = vs ++ hints_concat l := by
  induction l generalizing vs rs with
  | nil => simp [flatten_loop, hints_concat]
  | cons p rest ih =>
    obtain ⟨pc, hs⟩ := p
    by_cases h : hs = []
    · subst h
      simp [flatten_loop, hints_concat, ih]
    · simp [flatten_loop, if_neg h, hints_concat, ih, List.append_assoc]

theorem flatten_loop_snd_length (l : List (Nat × List HintParams)) (vs : List HintParams)
    (rs : List (Option (Nat × Nat))) :
    (flatten_loop l vs rs).2.length = rs.length := by
  induction l generalizing vs rs with
  | nil => rfl
  | cons p rest ih =>
    obtain ⟨pc, hs⟩ := p
    by_cases h : hs = []
    · subst h
      simp [flatten_loop, ih]
    · simp [flatten_loop, if_neg h, ih]

theorem flatten_loop_getD_of_empty (l : List (Nat × List HintParams)) (vs : List HintParams)
    (rs : List (Option (Nat × Nat))) (pc : Nat)
    (h : ∀ hs, (pc, hs) ∈ l → hs = []) :
    (flatten_loop l vs rs).2.getD pc none = rs.getD pc none := by
  induction l generalizing vs rs with
  | nil => rfl
  | cons p rest ih =>
    obtain ⟨pc1, hs1⟩ := p
    by_cases he : hs1 = []
    · subst he
      simp only [flatten_loop, if_pos rfl]
      exact ih _ _ (fun hs hm => h hs (List.mem_cons_of_mem _ hm))
    · have hne : pc ≠ pc1 := by
        intro heq
        exact he (h hs1 (by rw [heq]; exact List.mem_cons_self _ _))
      simp only [flatten_loop, if_neg he]
      rw [ih _ _ (fun hs hm => h hs (List.mem_cons_of_mem _ hm)),
        getD_set_ne _ _ _ _ _ hne]

theorem flatten_loop_lookup (l : List (Nat × List HintParams)) (vs : List HintParams)
    (rs : List (Option (Nat × Nat)))
    (hnd : (l.map Prod.fst).Nodup)
    (hlt : ∀ p ∈ l, p.1 < rs.length)
    (pc : Nat) (hs : List HintParams)
    (hget : hashmap_get l pc = some hs) (hne : hs ≠ []) :
    ∃ off, (flatten_loop l vs rs).2.getD pc none = some (off, hs.length) ∧
      ((flatten_loop l vs rs).1.drop off).take hs.length = hs := by
  induction l generalizing vs rs with
  | nil => simp [hashmap_get] at hget
  | cons p rest ih =>
    obtain ⟨pc1, hs1⟩ := p
    simp only [List.map_cons, List.nodup_cons] at hnd
    by_cases hkey : pc1 = pc
    · subst hkey
      have hhs : hs1 = hs := by simpa [hashmap_get] using hget
      subst hhs
      have hnotin : ∀ hs2, (pc1, hs2) ∈ rest → hs2 = [] := by
        intro hs2 hm
        exact absurd (List.mem_map.mpr ⟨(pc1, hs2), hm, rfl⟩) hnd.1
      refine ⟨vs.length, ?_, ?_⟩
      · simp only [flatten_loop, if_neg hne]
        rw [flatten_loop_getD_of_empty _ _ _ _ hnotin,
          getD_set_self _ _ _ _ (hlt (pc1, hs1) (List.mem_cons_self _ _))]
      · simp only [flatten_loop, if_neg hne]
        rw [flatten_loop_fst, List.append_assoc, List.drop_left, List.take_left]
    · have hget2 : hashmap_get rest pc = some hs := by
        simpa [hashmap_get, if_neg hkey] using hget
      by_cases he : hs1 = []
      · subst he
        simp only [flatten_loop, if_pos rfl]
        exact ih vs rs hnd.2 (fun q hq => hlt q (List.mem_cons_of_mem _ hq)) hget2
      · simp only [flatten_loop, if_neg he]
        exact ih (vs ++ hs1) _ hnd.2
          (fun q hq => by rw [List.length_set]; exact hlt q (List.mem_cons_of_mem _ hq)) hget2

/-! ### flatten_bounds lemmas -/

theorem bounds_foldl_le (l : List (Nat × List HintParams)) (a : Nat × Nat) :
    a.1 ≤ (l.foldl (fun acc p => (max acc.1 p.1, acc.2 + p.2.length)) a).1 := by
  induction l generalizing a with
  | nil => exact le_refl _
  | cons p rest ih =>
    simp only [List.foldl_cons]
    exact le_trans (le_max_left a.1 p.1) (ih (max a.1 p.1, a.2 + p.2.length))

theorem bounds_foldl_mem_le (l : List (Nat × List HintParams)) (a : Nat × Nat) :
    ∀ p ∈ l, p.1 ≤ (l.foldl (fun acc q => (max acc.1 q.1, acc.2 + q.2.length)) a).1 := by
  induction l generalizing a with
  | nil => intro p hp; simp at hp
  | cons q rest ih =>
    intro p hp
    simp only [List.foldl_cons]
    rcases List.mem_cons.mp hp with he | hm
    · rw [he]
      exact le_trans (le_max_right a.1 q.1)
        (bounds_foldl_le rest (max a.1 q.1, a.2 + q.2.length))
    · exact ih (max a.1 q.1, a.2 + q.2.length) p hm

theorem bounds_foldl_fst_mem (l : List (Nat × List HintParams)) (a : Nat × Nat) :
    (l.foldl (fun acc q => (max acc.1 q.1, acc.2 + q.2.length)) a).1 = a.1 ∨
      (l.foldl (fun acc q => (max acc.1 q.1, acc.2 + q.2.length)) a).1 ∈ l.map Prod.fst := by
  induction l generalizing a with
  | nil => exact Or.inl rfl
  | cons q rest ih =>
    simp only [List.foldl_cons]
    rcases ih (max a.1 q.1, a.2 + q.2.length) with h | h
    · rw [h]
      rcases max_choice a.1 q.1 with hm | hm
    
      · exact Or.inl hm
      · exact Or.inr (by rw [hm]; exact List.mem_cons_self _ _)
    · exact Or.inr (List.mem_cons_of_mem _ h)

theorem flatten_bounds_none_iff (m : List (Nat × List HintParams)) :
    flatten_bounds m = none ↔ m = [] := by
  cases m with
  | nil => simp [flatten_bounds]
  | cons p rest => simp [flatten_bounds]

theorem flatten_bounds_spec (m : List (Nat × List HintParams)) (mp fl : Nat)
    (h : flatten_bounds m = some (mp, fl)) :
    (∀ p ∈ m, p.1 ≤ mp) ∧ mp ∈ m.map Prod.fst := by
  cases m with
  | nil => simp [flatten_bounds] at h
  | cons p rest =>
    obtain ⟨pc, hs⟩ := p
    simp only [flatten_bounds, Option.some.injEq] at h
    have hmp : mp = (rest.foldl (fun acc q => (max acc.1 q.1, acc.2 + q.2.length))
        (pc, hs.length)).1 := by rw [h]
    constructor
    · intro q hq
      rw [hmp]
      rcases List.mem_cons.mp hq with he | hm
      · rw [he]
        exact bounds_foldl_le rest (pc, hs.length)
      · exact bounds_foldl_mem_le rest (pc, hs.length) q hm
    · rw [hmp]
      rcases bounds_foldl_fst_mem rest (pc, hs.length) with hh | hh

      · rw [hh]
        exact List.mem_cons_self _ _
      · exact List.mem_cons_of_mem _ hh

/-! ### flatten_hints top-level lemmas -/

theorem flatten_hints_getD_of_empty (m : List (Nat × List HintParams)) (pc : Nat)
    (h : ∀ hs, (pc, hs) ∈ m → hs = []) :
    (Program.flatten_hints m).2.getD pc none = none := by
  unfold Program.flatten_hints
  cases hb : flatten_bounds m with
  | none => simp
  | some b =>
    obtain ⟨mp, fl⟩ := b
    simp only
    rw [flatten_loop_getD_of_empty _ _ _ _ h, getD_replicate]

theorem flatten_hints_lookup (m : List (Nat × List HintParams))
    (hnd : (m.map Prod.fst).Nodup) (pc : Nat) (hs : List HintParams)
    (hget : hashmap_get m pc = some hs) (hne : hs ≠ []) :
    ∃ off, (Program.flatten_hints m).2.getD pc none = some (off, hs.length) ∧
      ((Program.flatten_hints m).1.drop off).take hs.length = hs := by
  have hmne : m ≠ [] := by
    rintro rfl
    simp [hashmap_get] at hget
  cases hb : flatten_bounds m with
  | none => exact absurd ((flatten_bounds_none_iff m).mp hb) hmne
  | some b =>
    obtain ⟨mp, fl⟩ := b
    have hspec := flatten_bounds_spec m mp fl hb
    unfold Program.flatten_hints
    rw [hb]
    exact flatten_loop_lookup m [] _ hnd
      (fun p hp => by
        rw [List.length_replicate]
        exact Nat.lt_succ_of_le (hspec.1 p hp))
      pc hs hget hne

/-! ### Partition structure of the range index (for the implicit invariant) -/

theorem ranges_len_sum_replicate (n : Nat) :
    ranges_len_sum (List.replicate n none) = 0 := by
  induction n with
  | zero => rfl
  | succ n ih => simpa [List.replicate, ranges_len_sum] using ih

theorem ranges_len_sum_set (rs : List (Option (Nat × Nat))) (pc : Nat) (r : Nat × Nat)
    (hlt : pc < rs.length) (h0 : rs.getD pc none = none) :
    ranges_len_sum (rs.set pc (some r)) = ranges_len_sum rs + r.2 := by
  induction rs generalizing pc with
  | nil => simp at hlt
  | cons a t ih =>
    cases pc with
    | zero =>
      have ha : a = none := by simpa using h0
      subst ha
      simp [List.set, ranges_len_sum, Nat.add_comm]
    | succ pc =>
      have hlt2 : pc < t.length := by simpa using hlt
      have h02 : t.getD pc none = none := by simpa using h0
      cases a with
      | none => simpa [List.set, ranges_len_sum] using ih pc hlt2 h02
      | some r1 =>
        simp [List.set, ranges_len_sum, ih pc hlt2 h02, Nat.add_assoc]

theorem flatten_loop_partition (l : List (Nat × List HintParams)) (vs : List HintParams)
    (rs : List (Option (Nat × Nat)))
    (hnd : (l.map Prod.fst).Nodup)
    (hlt : ∀ p ∈ l, p.1 < rs.length)
    (hnone : ∀ p ∈ l, rs.getD p.1 none = none)
    (hbound : ∀ i r, rs.getD i none = some r → r.1 + r.2 ≤ vs.length)
    (hsum : ranges_len_sum rs = vs.length)
    (hdisj : ∀ i j ri rj, i ≠ j → rs.getD i none = some ri → rs.getD j none = some rj →
      ri.1 + ri.2 ≤ rj.1 ∨ rj.1 + rj.2 ≤ ri.1) :
    (∀ i r, (flatten_loop l vs rs).2.getD i none = some r →
      r.1 + r.2 ≤ (flatten_loop l vs rs).1.length) ∧
    ranges_len_sum (flatten_loop l vs rs).2 = (flatten_loop l vs rs).1.length ∧
    (∀ i j ri rj, i ≠ j → (flatten_loop l vs rs).2.getD i none = some ri →
      (flatten_loop l vs rs).2.getD j none = some rj →
      ri.1 + ri.2 ≤ rj.1 ∨ rj.1 + rj.2 ≤ ri.1) := by
  induction l generalizing vs rs with
  | nil => exact ⟨hbound, hsum, hdisj⟩
  | cons p rest ih =>
    obtain ⟨pc, hs⟩ := p
    simp only [List.map_cons, List.nodup_cons] at hnd
    by_cases he : hs = []
    · subst he
      simp only [flatten_loop, if_pos rfl]
      exact ih vs rs hnd.2
        (fun q hq => hlt q (List.mem_cons_of_mem _ hq))
        (fun q hq => hnone q (List.mem_cons_of_mem _ hq))
        hbound hsum hdisj
    · simp only [flatten_loop, if_neg he]
      have hpc_lt : pc < rs.length := hlt (pc, hs) (List.mem_cons_self _ _)
      have hpc_none : rs.getD pc none = none := hnone (pc, hs) (List.mem_cons_self _ _)
      have hkey_ne : ∀ q ∈ rest, q.1 ≠ pc := by
        intro q hq heq
        exact hnd.1 (List.mem_map.mpr ⟨q, hq, heq⟩)
      refine ih (vs ++ hs) (rs.set pc (some (vs.length, hs.length))) hnd.2 ?_ ?_ ?_ ?_ ?_
      · intro q hq
        rw [List.length_set]
        exact hlt q (List.mem_cons_of_mem _ hq)
      · intro q hq
        rw [getD_set_ne _ _ _ _ _ (hkey_ne q hq)]
        exact hnone q (List.mem_cons_of_mem _ hq)
      · intro i r hi
        rw [List.length_append]
        by_cases hip : i = pc
        · subst hip
          rw [getD_set_self _ _ _ _ hpc_lt] at hi
          obtain rfl : (vs.length, hs.length) = r := by simpa using hi
          exact le_refl _
        · rw [getD_set_ne _ _ _ _ _ hip] at hi
          exact le_trans (hbound i r hi) (Nat.le_add_right _ _)
      · rw [ranges_len_sum_set rs pc _ hpc_lt hpc_none, hsum, List.length_append]
      · intro i j ri rj hij hi hj
        by_cases hip : i = pc
        · subst hip
          rw [getD_set_self _ _ _ _ hpc_lt] at hi
          obtain rfl : (vs.length, hs.length) = ri := by simpa using hi
          rw [getD_set_ne _ _ _ _ _ (fun hh => hij hh.symm)] at hj
          exact Or.inr (hbound j rj hj)
        · rw [getD_set_ne _ _ _ _ _ hip] at hi
          by_cases hjp : j = pc
          · subst hjp
            rw [getD_set_self _ _ _ _ hpc_lt] at hj
            obtain rfl : (vs.length, hs.length) = rj := by simpa using hj
            exact Or.inl (hbound i ri hi)
          · rw [getD_set_ne _ _ _ _ _ hjp] at hj
            exact hdisj i j ri rj hij hi hj

/-! ### extract_constants lemmas -/

theorem extract_constants_error_shape (ids : List (String × Identifier)) (e : ProgramError)
    (h : extract_constants ids = Except.error e) :
    ∃ k ident, e = ProgramError.ConstWithoutValue k ∧ (k, ident) ∈ ids ∧
      ident.type_ = some "const" ∧ ident.value = none := by
  induction ids with
  | nil => simp [extract_constants] at h
  | cons p rest ih =>
    obtain ⟨key, ident⟩ := p
    by_cases hc : ident.type_ = some "const"
    · cases hv : ident.value with
      | none =>
        simp only [extract_constants, if_pos hc, hv, Except.error.injEq] at h
        exact ⟨key, ident, h.symm, List.mem_cons_self _ _, hc, hv⟩
      | some v =>
        simp only [extract_constants, if_pos hc, hv] at h
        cases hr : extract_constants rest with
        | error e2 =>
          rw [hr] at h
          have he2 : e2 = e := by simpa using h
          subst he2
          obtain ⟨k, id2, he, hm, ht, hn⟩ := ih hr
          exact ⟨k, id2, he, List.mem_cons_of_mem _ hm, ht, hn⟩
        | ok cs =>
          rw [hr] at h
          simp at h
    · simp only [extract_constants, if_neg hc] at h
      obtain ⟨k, id2, he, hm, ht, hn⟩ := ih h
      exact ⟨k, id2, he, List.mem_cons_of_mem _ hm, ht, hn⟩

theorem extract_constants_error_exists (ids : List (String × Identifier))
    (k : String) (ident : Identifier) (hm : (k, ident) ∈ ids)
    (ht : ident.type_ = some "const") (hn : ident.value = none) :
    ∃ e, extract_constants ids = Except.error e := by
  induction ids with
  | nil => simp at hm
  | cons p rest ih =>
    obtain ⟨key, id1⟩ := p
    rcases List.mem_cons.mp hm with he | hmem
    · have hk : k = key := congrArg Prod.fst he
      have hv : ident = id1 := congrArg Prod.snd he
      subst hk
      subst hv
      exact ⟨ProgramError.ConstWithoutValue k,
        by simp [extract_constants, if_pos ht, hn]⟩
    · by_cases hc : id1.type_ = some "const"
      · cases hv : id1.value with
        | none => exact ⟨ProgramError.ConstWithoutValue key,
            by simp [extract_constants, if_pos hc, hv]⟩
        | some v =>
          obtain ⟨e, he⟩ := ih hmem
          refine ⟨e, ?_⟩
          simp [extract_constants, if_pos hc, hv, he]
      · obtain ⟨e, he⟩ := ih hmem
        refine ⟨e, ?_⟩
        simp [extract_constants, if_neg hc, he]

theorem extract_constants_ok_mem (ids : List (String × Identifier))
    (cs : List (String × Felt252)) (h : extract_constants ids = Except.ok cs)
    (name : String) (v : Felt252) :
    (name, v) ∈ cs ↔
      ∃ ident, (name, ident) ∈ ids ∧ ident.type_ = some "const" ∧ ident.value = some v := by
  induction ids generalizing cs with
  | nil =>
    have hcs : cs = [] := by simpa [extract_constants] using h
    subst hcs
    simp
  | cons p rest ih =>
    obtain ⟨key, id1⟩ := p
    by_cases hc : id1.type_ = some "const"
    · cases hv : id1.value with
      | none => simp [extract_constants, if_pos hc, hv] at h
      | some v1 =>
        simp only [extract_constants, if_pos hc, hv] at h
        cases hr : extract_constants rest with
        | error e2 =>
          rw [hr] at h
          simp at h
        | ok cs2 =>
          rw [hr] at h
          have hcs : cs = (key, v1) :: cs2 := by simpa using h.symm
          subst hcs
          constructor
          · intro hmem
            rcases List.mem_cons.mp hmem with he | hmem2
            · obtain ⟨hk, hvv⟩ := Prod.mk.injEq .. ▸ he
              subst hk
              exact ⟨id1, List.mem_cons_self _ _, hc, by rw [hv, hvv]⟩
            · obtain ⟨ident, hmm, htt, hnn⟩ := (ih cs2 hr).mp hmem2
              exact ⟨ident, List.mem_cons_of_mem _ hmm, htt, hnn⟩
          · rintro ⟨ident, hmm, htt, hnn⟩
            rcases List.mem_cons.mp hmm with he | hmem2
            · obtain ⟨hk, hid⟩ := Prod.mk.injEq .. ▸ he
              subst hk
              subst hid
              have : v1 = v := by rw [hv] at hnn; exact Option.some.inj hnn
              subst this
              exact List.mem_cons_self _ _
            · exact List.mem_cons_of_mem _ ((ih cs2 hr).mpr ⟨ident, hmem2, htt, hnn⟩)
    · simp only [extract_constants, if_neg hc] at h
      constructor
      · intro hmem
        obtain ⟨ident, hmm, htt, hnn⟩ := (ih cs h).mp hmem
        exact ⟨ident, List.mem_cons_of_mem _ hmm, htt, hnn⟩
      · rintro ⟨ident, hmm, htt, hnn⟩
        rcases List.mem_cons.mp hmm with he | hmem2
        · obtain ⟨hk, hid⟩ := Prod.mk.injEq .. ▸ he
          subst hid
          exact absurd htt hc
        · exact (ih cs h).mpr ⟨ident, hmem2, htt, hnn⟩

/-! ### Reference derivation helper -/

theorem ap_match_eq (o1 o2 : OffsetValue) (t : ApTracking) :
    (match o1, o2 with
      | OffsetValue.Reference Register.AP _ _, _ => some t
      | _, OffsetValue.Reference Register.AP _ _ => some t
      | _, _ => none) =
      (if isApReference o1 || isApReference o2 then some t else none) := by
  cases o1 with
  | Immediate a =>
    cases o2 with
    | Immediate b => rfl
    | Value b => rfl
    | Reference r2 b d2 => cases r2 <;> rfl
  | Value a =>
    cases o2 with
    | Immediate b => rfl
    | Value b => rfl
    | Reference r2 b d2 => cases r2 <;> rfl
  | Reference r1 a d1 =>
    cases r1 with
    | AP =>
      cases o2 with
      | Immediate b => rfl
      | Value b => rfl
      | Reference r2 b d2 => cases r2 <;> rfl
    | FP =>
      cases o2 with
      | Immediate b => rfl
      | Value b => rfl
      | Reference r2 b d2 => cases r2 <;> rfl

theorem flatten_hints_absent (m : List (Nat × List HintParams))
    (hnd : (m.map Prod.fst).Nodup) (pc : Nat)
    (h : hashmap_get m pc = none ∨ hashmap_get m pc = some []) :
    (Program.flatten_hints m).2.getD pc none = none := by
  apply flatten_hints_getD_of_empty
  intro hs hm
  rcases h with h | h
  · exact absurd hm ((hashmap_get_eq_none m pc).mp h hs)
  · have h2 := hashmap_get_of_mem m pc hs hnd hm
    rw [h] at h2
    exact (Option.some.inj h2).symm

/-- C1.  For every per-pc hint mapping (association list with distinct keys,
covering every HashMap iteration order), slicing the dense array of
Program.flatten_hints at each present index range reproduces exactly the
mapped hint list of that pc, contents and order; and every pc that is
absent or mapped to the empty list has no range (its index entry reads
none, also when the pc is outside the index array). -/
theorem claim_C1 (m : List (Nat × List HintParams)) (hnd : (m.map Prod.fst).Nodup) :
    (∀ pc off len, (Program.flatten_hints m).2.getD pc none = some (off, len) →
      ∃ hs, hashmap_get m pc = some hs ∧ hs ≠ [] ∧ len = hs.length ∧
        ((Program.flatten_hints m).1.drop off).take len = hs) ∧
    (∀ pc, (hashmap_get m pc = none ∨ hashmap_get m pc = some []) →
      (Program.flatten_hints m).2.getD pc none = none) := by
  refine ⟨?_, flatten_hints_absent m hnd⟩
  intro pc off len hr
  cases hg : hashmap_get m pc with
  | none =>
    rw [flatten_hints_absent m hnd pc (Or.inl hg)] at hr
    exact absurd hr (by simp)
  | some hs =>
    by_cases he : hs = []
    · subst he
      rw [flatten_hints_absent m hnd pc (Or.inr hg)] at hr
      exact absurd hr (by simp)
    · obtain ⟨off2, h2, hslice⟩ := flatten_hints_lookup m hnd pc hs hg he
      rw [hr] at h2
      have hpair : (off, len) = (off2, hs.length) := Option.some.inj h2
      have hoff : off = off2 := congrArg Prod.fst hpair
      have hlen : len = hs.length := congrArg Prod.snd hpair
      refine ⟨hs, rfl, he, hlen, ?_⟩
      rw [hoff, hlen]
      exact hslice

/-- C5.  Every range present in the index array of Program.flatten_hints has
strictly positive length (so the NonZeroUsize expect inside flatten_hints
never fires), and absence of a range means the pc has no hints. -/
theorem claim_C5 (m : List (Nat × List HintParams)) (hnd : (m.map Prod.fst).Nodup) :
    (∀ pc off len, (Program.flatten_hints m).2.getD pc none = some (off, len) → 0 < len) ∧
    (∀ pc, (Program.flatten_hints m).2.getD pc none = none →
      hashmap_get m pc = none ∨ hashmap_get m pc = some []) := by
  constructor
  · intro pc off len hr
    cases hg : hashmap_get m pc with
    | none =>
      rw [flatten_hints_absent m hnd pc (Or.inl hg)] at hr
      exact absurd hr (by simp)
    | some hs =>
      by_cases he : hs = []
      · subst he
        rw [flatten_hints_absent m hnd pc (Or.inr hg)] at hr
        exact absurd hr (by simp)
      · obtain ⟨off2, h2, _⟩ := flatten_hints_lookup m hnd pc hs hg he
        rw [hr] at h2
        have hlen : len = hs.length := congrArg Prod.snd (Option.some.inj h2)
        rw [hlen]
        exact List.length_pos.mpr he
  · intro pc hnone
    cases hg : hashmap_get m pc with
    | none => exact Or.inl rfl
    | some hs =>
      by_cases he : hs = []
      · subst he
        exact Or.inr rfl
      · obtain ⟨off2, h2, _⟩ := flatten_hints_lookup m hnd pc hs hg he
        rw [hnone] at h2
        exact absurd h2 (by simp)

/-- C4 (amended).  The empty mapping gives two empty outputs; a non-empty
mapping gives an index array of length max_pc + 1 where max_pc is the
largest pc present as a key of the mapping (keys mapped to empty lists
included); a range is present at a pc exactly when the pc has at least one
hint. -/
theorem claim_C4 (m : List (Nat × List HintParams)) (hnd : (m.map Prod.fst).Nodup) :
    (m = [] → Program.flatten_hints m = ([], [])) ∧
    (m ≠ [] → ∃ max_pc, max_pc ∈ m.map Prod.fst ∧ (∀ p ∈ m, p.1 ≤ max_pc) ∧
      (Program.flatten_hints m).2.length = max_pc + 1) ∧
    (∀ pc, ((Program.flatten_hints m).2.getD pc none).isSome = true ↔
      ∃ hs, hashmap_get m pc = some hs ∧ hs ≠ []) := by
  refine ⟨?_, ?_, ?_⟩
  · rintro rfl
    rfl
  · intro hne
    cases hb : flatten_bounds m with
    | none => exact absurd ((flatten_bounds_none_iff m).mp hb) hne
    | some b =>
      obtain ⟨mp, fl⟩ := b
      obtain ⟨hle, hmem⟩ := flatten_bounds_spec m mp fl hb
      refine ⟨mp, hmem, hle, ?_⟩
      unfold Program.flatten_hints
      rw [hb, flatten_loop_snd_length, List.length_replicate]
  · intro pc
    constructor
    · intro hsome
      cases hg : hashmap_get m pc with
      | none =>
        rw [flatten_hints_absent m hnd pc (Or.inl hg)] at hsome
        exact absurd hsome (by simp)
      | some hs =>
        by_cases he : hs = []
        · subst he
          rw [flatten_hints_absent m hnd pc (Or.inr hg)] at hsome
          exact absurd hsome (by simp)
        · exact ⟨hs, rfl, he⟩
    · rintro ⟨hs, hg, he⟩
      obtain ⟨off, h2, _⟩ := flatten_hints_lookup m hnd pc hs hg he
      rw [h2]
      rfl

/-- C9.  The index produced by Program.flatten_hints is a well-formed
partition of the dense array: every present range is in bounds, ranges of
distinct pcs are pairwise disjoint, and the present lengths sum to the
dense array length. -/
theorem claim_C9 (m : List (Nat × List HintParams)) (hnd : (m.map Prod.fst).Nodup) :
    (∀ pc off len, (Program.flatten_hints m).2.getD pc none = some (off, len) →
      off + len ≤ (Program.flatten_hints m).1.length) ∧
    ranges_len_sum (Program.flatten_hints m).2 = (Program.flatten_hints m).1.length ∧
    (∀ pc1 pc2 off1 len1 off2 len2, pc1 ≠ pc2 →
      (Program.flatten_hints m).2.getD pc1 none = some (off1, len1) →
      (Program.flatten_hints m).2.getD pc2 none = some (off2, len2) →
      off1 + len1 ≤ off2 ∨ off2 + len2 ≤ off1) := by
  cases hb : flatten_bounds m with
  | none =>
    have hm0 : Program.flatten_hints m = ([], []) := by
      unfold Program.flatten_hints
      rw [hb]
    rw [hm0]
    refine ⟨?_, rfl, ?_⟩
    · intro pc off len h
      exact absurd h (by simp)
    · intro pc1 pc2 off1 len1 off2 len2 hne h1 h2
      exact absurd h1 (by simp)
  | some b =>
    obtain ⟨mp, fl⟩ := b
    obtain ⟨hle, _⟩ := flatten_bounds_spec m mp fl hb
    have heq : Program.flatten_hints m = flatten_loop m [] (List.replicate (mp + 1) none) := by
      unfold Program.flatten_hints
      rw [hb]
    rw [heq]
    obtain ⟨pb, ps, pd⟩ := flatten_loop_partition m [] (List.replicate (mp + 1) none) hnd
      (fun p hp => by
        rw [List.length_replicate]
        exact Nat.lt_succ_of_le (hle p hp))
      (fun p hp => getD_replicate _ _ _)
      (fun i r hi => by
        rw [getD_replicate] at hi
        exact absurd hi (by simp))
      (by rw [ranges_len_sum_replicate]; rfl)
      (fun i j ri rj hij hi hj => by
        rw [getD_replicate] at hi
        exact absurd hi (by simp))
    exact ⟨fun pc off len h => pb pc (off, len) h, ps,
      fun a b o1 l1 o2 l2 hne h1 h2 => pd a b (o1, l1) (o2, l2) hne h1 h2⟩

/-- C2.  Program.new fails with an error naming an offending identifier
exactly when some identifier tagged const has no value; on success the
constants mapping holds exactly the (name, value) pairs of the
const-tagged identifiers. -/
theorem claim_C2 (builtins : List BuiltinName) (data : List MaybeRelocatable)
    (main : Option Nat) (hints : List (Nat × List HintParams))
    (reference_manager : ReferenceManager)
    (identifiers : List (String × Identifier))
    (error_message_attributes : List Attribute)
    (instruction_locations : Option (List (Nat × InstructionLocation))) :
    ((∃ k ident, (k, ident) ∈ identifiers ∧ ident.type_ = some "const" ∧
        ident.value = none) ↔
      (∃ k ident, Program.new builtins data main hints reference_manager identifiers
          error_message_attributes instruction_locations =
          Except.error (ProgramError.ConstWithoutValue k) ∧
        (k, ident) ∈ identifiers ∧ ident.type_ = some "const" ∧ ident.value = none)) ∧
    (∀ p, Program.new builtins data main hints reference_manager identifiers
        error_message_attributes instruction_locations = Except.ok p →
      ∀ name v, ((name, v) ∈ p.constants ↔
        ∃ ident, (name, ident) ∈ identifiers ∧ ident.type_ = some "const" ∧
          ident.value = some v)) := by
  constructor
  · constructor
    · rintro ⟨k, ident, hm, ht, hn⟩
      obtain ⟨e, he⟩ := extract_constants_error_exists identifiers k ident hm ht hn
      obtain ⟨k2, id2, hshape, hm2, ht2, hn2⟩ := extract_constants_error_shape identifiers e he
      refine ⟨k2, id2, ?_, hm2, ht2, hn2⟩
      unfold Program.new
      rw [he, hshape]
    · rintro ⟨k, ident, _, hm, ht, hn⟩
      exact ⟨k, ident, hm, ht, hn⟩
  · intro p hok name v
    unfold Program.new at hok
    cases he : extract_constants identifiers with
    | error e =>
      rw [he] at hok
      exact absurd hok (by simp)
    | ok cs =>
      rw [he] at hok
      have hp : p.constants = cs := by
        have := Option.some.inj (congrArg Except.toOption hok)
        rw [← this]
      rw [hp]
      exact extract_constants_ok_mem identifiers cs he name v

/-- C3.  Program.get_reference_list yields one reduced reference per input
reference, in order, preserving both offset expressions, the dereference
flag and the declared type; ap tracking data is kept exactly when one of
the two offset expressions is an AP-register-relative reference. -/
theorem claim_C3 (rm : ReferenceManager) :
    (Program.get_reference_list rm).length = rm.references.length ∧
    (∀ (i : Nat) (r : Reference), rm.references[i]? = some r →
      (Program.get_reference_list rm)[i]? = some
        ({ offset1 := r.value_address.offset1
           offset2 := r.value_address.offset2
           dereference := r.value_address.dereference
           ap_tracking_data :=
             if isApReference r.value_address.offset1 ||
                 isApReference r.value_address.offset2 then
               some r.ap_tracking_data
             else none
           cairo_type := some r.value_address.value_type } : HintReference)) := by
  constructor
  · exact List.length_map _ _
  · intro i r h
    unfold Program.get_reference_list
    rw [List.getElem?_map, h]
    simp only [Option.map_some']
    rw [ap_match_eq r.value_address.offset1 r.value_address.offset2 r.ap_tracking_data]

/-- C6.  Reading a successfully constructed program back through its
accessors reproduces the construction inputs: builtins (order and count),
instructions (order and count), and the identifier set (lookup by name and
full iteration). -/
theorem claim_C6 (builtins : List BuiltinName) (data : List MaybeRelocatable)
    (main : Option Nat) (hints : List (Nat × List HintParams))
    (reference_manager : ReferenceManager)
    (identifiers : List (String × Identifier))
    (error_message_attributes : List Attribute)
    (instruction_locations : Option (List (Nat × InstructionLocation)))
    (p : Program)
    (hok : Program.new builtins data main hints reference_manager identifiers
      error_message_attributes instruction_locations = Except.ok p) :
    p.iter_builtins = builtins ∧ p.builtins_len = builtins.length ∧
    p.iter_data = data ∧ p.data_len = data.length ∧
    (∀ k, p.get_identifier k = hashmap_get identifiers k) ∧
    (∀ k ident, (k, ident) ∈ p.iter_identifiers ↔ (k, ident) ∈ identifiers) := by
  unfold Program.new at hok
  cases he : extract_constants identifiers with
  | error e =>
    rw [he] at hok
    exact absurd hok (by simp)
  | ok cs =>
    rw [he] at hok
    have hp := Option.some.inj (congrArg Except.toOption hok)
    rw [← hp]
    exact ⟨rfl, rfl, rfl, rfl, fun k => rfl, fun k ident => Iff.rfl⟩

/-- C8.  Program.prime is a constant function: it returns the same fixed
prime string for every program value, independent of program content. -/
theorem claim_C8 (p q : Program) : p.prime = q.prime ∧ p.prime = PRIME_STR :=
  ⟨rfl, rfl⟩

/-- C7.  The feature-gated conversion from a compiled contract class maps
each bytecode codeword to one field-element instruction in order, and each
hint-table entry to exactly one synthetic hint at its pc whose body is the
textual pc with empty scopes and empty reference metadata; the program has
empty builtins, no entrypoint, no attributes, no identifiers and no
reference entries. -/
theorem claim_C7 (cc : CasmContractClass) (p : Program)
    (hnd : (cc.hints.map Prod.fst).Nodup)
    (hok : Program.try_from cc = Except.ok p) :
    p.builtins = [] ∧
    p.shared_program_data.main = none ∧
    p.shared_program_data.error_message_attributes = [] ∧
    p.shared_program_data.reference_manager = [] ∧
    p.shared_program_data.identifiers = [] ∧
    (∀ i : Nat, p.shared_program_data.data[i]? =
      (cc.bytecode[i]?).map (fun x => MaybeRelocatable.Int (Int.ofNat x.value))) ∧
    (∀ pc hs, hashmap_get cc.hints pc = some hs →
      ∃ off, p.shared_program_data.hints_ranges.getD pc none = some (off, 1) ∧
        (p.shared_program_data.hints.drop off).take 1 = [casm_synthetic_hint pc]) ∧
    (∀ pc, hashmap_get cc.hints pc = none →
      p.shared_program_data.hints_ranges.getD pc none = none) := by
  have hok2 : (Except.ok
      { shared_program_data :=
          { data := cc.bytecode.map (fun x => MaybeRelocatable.Int (Int.ofNat x.value))
            hints := (Program.flatten_hints
              (cc.hints.map (fun x => (x.1, [casm_synthetic_hint x.1])))).1
            hints_ranges := (Program.flatten_hints
              (cc.hints.map (fun x => (x.1, [casm_synthetic_hint x.1])))).2
            main := none
            start := none
            end_ := none
            error_message_attributes := []
            instruction_locations := none
            identifiers := []
            reference_manager := [] }
        constants := []
        builtins := [] } : Except ProgramError Program) = Except.ok p := hok
  have hp := Except.ok.inj hok2
  rw [← hp]
  have hnd2 : ((cc.hints.map (fun x => (x.1, [casm_synthetic_hint x.1]))).map
      Prod.fst).Nodup := by
    rw [List.map_map]
    exact hnd
  refine ⟨rfl, rfl, rfl, rfl, rfl, ?_, ?_, ?_⟩
  · intro i
    exact List.getElem?_map _ _ _
  · intro pc hs hget
    have hgm : hashmap_get (cc.hints.map (fun x => (x.1, [casm_synthetic_hint x.1]))) pc =
        (hashmap_get cc.hints pc).map (fun _ => [casm_synthetic_hint pc]) :=
      hashmap_get_map cc.hints (fun k => [casm_synthetic_hint k]) pc
    rw [hget] at hgm
    obtain ⟨off, hr, hslice⟩ := flatten_hints_lookup _ hnd2 pc [casm_synthetic_hint pc]
      hgm (by simp)
    exact ⟨off, hr, hslice⟩
  · intro pc hg
    apply flatten_hints_getD_of_empty
    intro hs hm
    exfalso
    obtain ⟨x, hx, hxe⟩ := List.mem_map.mp hm
    have hpc : x.1 = pc := congrArg Prod.fst hxe
    have hmem : (pc, x.2) ∈ cc.hints := by
      rw [← hpc]
      exact hx
    exact (hashmap_get_eq_none cc.hints pc).mp hg x.2 hmem

set_option maxRecDepth 40000 in
/-- C10 (amended).  Under the two-complement i64 semantics of release
builds, fibonacci panics exactly at n = 0 (modelled as none), returns 0 for
every negative n, and returns the n-th Fibonacci number for every
1 ≤ n ≤ 92; from n = 93 on the i64 addition overflows, so the n-th
Fibonacci number is no longer returned (debug builds panic there instead). -/
theorem claim_C10 :
    fibonacci 0 = none ∧
    (∀ n : Int, fibonacci n = none → n = 0) ∧
    (∀ n : Int, n < 0 → fibonacci n = some 0) ∧
    (∀ n : Nat, n ≤ 92 → 1 ≤ n → fibonacci (n : Int) = some ((Nat.fib n : Nat) : Int)) := by
  refine ⟨rfl, ?_, ?_, ?_⟩
  · intro n h
    by_contra hne
    rw [fibonacci, if_neg hne] at h
    by_cases h1 : n = 1
    · rw [if_pos h1] at h
      exact absurd h (by simp)
    · rw [if_neg h1] at h
      exact absurd h (by simp)
  · intro n hn
    have h0 : n ≠ 0 := by omega
    have h1 : n ≠ 1 := by omega
    rw [fibonacci, if_neg h0, if_neg h1]
    have ht : (n - 1).toNat = 0 := by omega
    rw [ht]
    rfl
  · decide

set_option maxRecDepth 40000 in
/-- C10 counterexample: at n = 93 the claim as stated fails on the code:
the 93rd Fibonacci number exceeds the i64 range, so the function returns
its wrapped value, not the Fibonacci number. -/
theorem claim_C10_counterexample :
    fibonacci 93 = some (-6246583658587674878) ∧
    ((Nat.fib 93 : Nat) : Int) = 12200160415121876738 ∧
    ¬ fibonacci 93 = some ((Nat.fib 93 : Nat) : Int) := by decide

/-! ### Concrete inputs for witnesses and counterexamples -/

/-- C4 counterexample: the mapping with pc 1 bound to one hint and pc 5
bound to the empty list is non-empty, its largest pc with at least one hint
is 1, yet the index array has length 6, not 1 + 1 = 2: the code sizes the
index by the largest key of the mapping, empty-list keys included. -/
theorem claim_C4_counterexample :
    (Program.flatten_hints [(1, [wit_hp "a"]), (5, [])]).2.length = 6 ∧
    hashmap_get [((1 : Nat), [wit_hp "a"]), (5, ([] : List HintParams))] 5 = some [] ∧
    ¬ (Program.flatten_hints [(1, [wit_hp "a"]), (5, [])]).2.length = 2 := by
  decide

theorem claim_C1_witness : (Program.flatten_hints wit_hints).2.getD 0 none = none :=
  (claim_C1 wit_hints (by decide)).2 0 (Or.inl rfl)

theorem claim_C4_witness :
    ((Program.flatten_hints wit_hints).2.getD 5 none).isSome = true :=
  ((claim_C4 wit_hints (by decide)).2.2 5).mpr ⟨[wit_hp "c", wit_hp "d"], rfl, by decide⟩

theorem claim_C5_witness :
    hashmap_get wit_hints 3 = none ∨ hashmap_get wit_hints 3 = some [] :=
  (claim_C5 wit_hints (by decide)).2 3 rfl

theorem claim_C9_witness :
    ranges_len_sum (Program.flatten_hints wit_hints).2 =
      (Program.flatten_hints wit_hints).1.length :=
  (claim_C9 wit_hints (by decide)).2.1

theorem claim_C2_witness : ("a", (7 : Felt252)) ∈ wit_program.constants :=
  ((claim_C2 [BuiltinName.range_check, BuiltinName.bitwise]
      [MaybeRelocatable.Int 5189976364521848832] none [] { references := [] }
      wit_identifiers [] none).2 wit_program rfl "a" 7).mpr
    ⟨wit_ident_a, by decide, rfl, rfl⟩

theorem claim_C6_witness :
    wit_program.iter_builtins = [BuiltinName.range_check, BuiltinName.bitwise] :=
  (claim_C6 [BuiltinName.range_check, BuiltinName.bitwise]
    [MaybeRelocatable.Int 5189976364521848832] none [] { references := [] }
    wit_identifiers [] none wit_program rfl).1

theorem claim_C3_witness :
    (Program.get_reference_list wit_reference_manager)[0]? = some
      ({ offset1 := OffsetValue.Reference Register.AP 0 false
         offset2 := OffsetValue.Value 3
         dereference := true
         ap_tracking_data := some { group := 1, offset := 2 }
         cairo_type := some "felt" } : HintReference) := by
  have h := (claim_C3 wit_reference_manager).2 0 wit_reference rfl
  exact h

theorem claim_C7_witness :
    wit_casm_program.shared_program_data.data[0]? = some (MaybeRelocatable.Int 5) ∧
    wit_casm_program.builtins = [] := by
  have h := claim_C7 wit_cc wit_casm_program (by decide) rfl
  refine ⟨?_, h.1⟩
  have h6 := h.2.2.2.2.2.1 0
  rw [h6]
  rfl

theorem claim_C8_witness : Program.default.prime = PRIME_STR :=
  (claim_C8 Program.default Program.default).2

theorem claim_C10_witness :
    fibonacci (-5) = some 0 ∧
    fibonacci ((7 : Nat) : Int) = some ((Nat.fib 7 : Nat) : Int) :=
  ⟨claim_C10.2.2.1 (-5) (by decide), claim_C10.2.2.2 7 (by decide) (by decide)⟩
